import Mathlib

/-!
Verification of the Tomsons/ts-libs task scheduler
(`packages/taskr/src/lib/queue-manager.ts`).

The scheduler is embedded shallowly.  JavaScript is single threaded: all
scheduler state is mutated in synchronous segments separated by `await`
suspension points.  We model each synchronous segment as one step of a
small-step machine; the environment (task outcomes, backoff timers,
public API calls) chooses which segment runs next.  Every definition
mirrors the corresponding lines of `queue-manager.ts`; line numbers are
cited next to each definition.
-/

namespace QM

/-- `TaskStatus` enum, queue-manager.ts lines 23-34. -/
inductive TaskStatus where
  | PENDING
  | RUNNING
  | COMPLETED
  | FAILED
  | CANCELLED
deriving DecidableEq, Repr

/-- `TaskProgress` record, queue-manager.ts lines 39-48.  Exactly four
fields: `taskId`, `progress`, `status`, optional `error`.  Errors are
modelled by their message string. -/
structure TaskProgress where
  taskId : String
  progress : Int
  status : TaskStatus
  error : Option String
deriving DecidableEq, Repr

/-- `RetryPolicy`, queue-manager.ts lines 53-56. -/
structure RetryPolicy where
  calculateDelay : Nat → Nat

/-- `ExponentialBackoff`, queue-manager.ts lines 61-63:
`min(1000 * 2^attempt, 30000)`. -/
def ExponentialBackoff : RetryPolicy :=
  ⟨fun attempt => min (1000 * 2 ^ attempt) 30000⟩

/-- `Task`, queue-manager.ts lines 5-18.  The `execute` behaviour is
supplied by the environment (outcome events of the machine), so the
record keeps the scheduling-relevant data: `id`, optional `priority`,
optional `maxRetries`, optional `retryPolicy`, and whether a `cancel`
hook is supplied. -/
structure Task where
  id : String
  priority : Option Int := none
  maxRetries : Option Nat := none
  retryPolicy : Option RetryPolicy := none
  hasCancel : Bool := false

/-- `QueueOptions`, queue-manager.ts lines 68-75. -/
structure QueueOptions where
  concurrency : Nat
  defaultRetryPolicy : Option RetryPolicy := none
  maxRetries : Option Nat := none

/-- The constructor merge, queue-manager.ts lines 92-98:
`{ defaultRetryPolicy: ExponentialBackoff, maxRetries: 3, ...options }`. -/
def resolveOptions (o : QueueOptions) : QueueOptions :=
  { concurrency := o.concurrency
    defaultRetryPolicy := some (o.defaultRetryPolicy.getD ExponentialBackoff)
    maxRetries := some (o.maxRetries.getD 3) }

/-- A running-map entry `{ task, attempts }`, queue-manager.ts line 84. -/
structure RunningEntry where
  task : Task
  attempts : Nat

/-- Suspension point an in-flight `executeTask` invocation is parked at:
awaiting the outcome of `task.execute` (line 224) or awaiting the
backoff timer (line 232). -/
inductive Phase where
  | executing
  | backoff
deriving DecidableEq, Repr

/-- One pending `executeTask` promise chain.  `captured` is the
`attempts` value destructured from `runningTask` at the start of the
current `executeTask` invocation (lines 220 and 228): the catch block
uses this captured value, not the map content at rejection time. -/
structure Attempt where
  task : Task
  captured : Nat
  phase : Phase

/-- Scheduler state.  `queue`, `failedQueue`, `running` are the class
fields of lines 82-84 (`running` is a JS `Map`, modelled as an
insertion-ordered association list with unique keys).  `inFlight` is
not a class field: it models the set of pending `executeTask` promise
chains created by `processQueue` line 207 and kept alive across
suspension points. -/
structure QMState where
  queue : List Task := []
  failedQueue : List Task := []
  running : List (String × RunningEntry) := []
  inFlight : List Attempt := []

/-- Observable effects of one synchronous segment: a `ProgressEvent`
broadcast (line 257), a `task.cancel()` invocation (line 182), or a
`task.execute(...)` invocation (line 224). -/
inductive Action where
  | notify (e : TaskProgress)
  | cancelCall (id : String)
  | executeCall (id : String)
deriving DecidableEq, Repr

/-- `Map.set`: overwrite in place when the key is present, else append
(JS `Map` preserves insertion order, and `set` on an existing key keeps
its position). -/
def mapSet (m : List (String × RunningEntry)) (k : String) (v : RunningEntry) :
    List (String × RunningEntry) :=
  if m.any (fun p => p.1 = k) then
    m.map (fun p => if p.1 = k then (k, v) else p)
  else
    m ++ [(k, v)]

/-- `Map.delete`. -/
def mapDelete (m : List (String × RunningEntry)) (k : String) :
    List (String × RunningEntry) :=
  m.filter (fun p => ¬ p.1 = k)

/-- `task.priority ?? 0`, as used by the sort comparator (line 198). -/
def taskPri (t : Task) : Int := t.priority.getD 0

/-- The sort comparator of line 198, `(a, b) => (b.priority ?? 0) -
(a.priority ?? 0)`, as the ordering it induces: `a` sorts no later than
`b` iff the comparator value is `≤ 0`, i.e. `b`'s priority is `≤ a`'s. -/
def taskLE (a b : Task) : Bool := taskPri b ≤ taskPri a

/-- Stable insertion into a descending-priority list: the new element
goes after every element of priority `≥` its own, so elements that were
already in the list stay in front of later arrivals of equal
priority. -/
def insertDesc (t : Task) : List Task → List Task
  | [] => [t]
  | u :: us => if taskLE u t then u :: insertDesc t us else t :: u :: us

/-- `this.queue.sort(...)`, line 198.  `Array.prototype.sort` is a
stable sort (ES2019); any stable sort realises it, modelled here by a
stable insertion sort on the line-198 comparator. -/
def sortQueue (q : List Task) : List Task :=
  q.foldl (fun acc t => insertDesc t acc) []

/-- The default-merging done by `enqueue`, lines 112-117. -/
def withDefaults (o : QueueOptions) (t : Task) : Task :=
  ⟨t.id, some (t.priority.getD 0), t.maxRetries <|> o.maxRetries,
   t.retryPolicy <|> o.defaultRetryPolicy, t.hasCancel⟩

/-- `task.maxRetries ?? this.options.maxRetries!`, line 229.  After the
constructor merge `options.maxRetries` is always present; `.getD 0`
only totalises the non-null assertion. -/
def effMaxRetries (o : QueueOptions) (t : Task) : Nat :=
  t.maxRetries.getD (o.maxRetries.getD 0)

/-- `notifyProgress`, lines 250-258: the broadcast event value is the
literal `{taskId, progress, status, error}` of line 256. -/
def mkEvent (taskId : String) (progress : Int) (status : TaskStatus)
    (error : Option String) : TaskProgress :=
  ⟨taskId, progress, status, error⟩

/-- `getFailedTasks`, lines 103-105: a copy of the failed queue. -/
def getFailedTasks (st : QMState) : List Task := st.failedQueue

/-- The synchronous part of `processQueue`, lines 192-207: guard on
running size and queue emptiness, stable sort by descending priority,
shift, insert into `running` with `attempts = 0`, broadcast RUNNING,
then call `executeTask`, whose synchronous prefix (lines 220-224) finds
the just-inserted entry and invokes `task.execute`, suspending. -/
def processQueue (o : QueueOptions) (st : QMState) : QMState × List Action :=
  if st.running.length ≥ o.concurrency ∨ st.queue.length = 0 then (st, [])
  else
    match sortQueue st.queue with
    | [] => (st, [])
    | t :: rest =>
      ({ st with
          queue := rest
          running := mapSet st.running t.id ⟨t, 0⟩
          inFlight := st.inFlight ++ [⟨t, 0, Phase.executing⟩] },
       [Action.notify (mkEvent t.id 0 TaskStatus.RUNNING none),
        Action.executeCall t.id])

/-- `enqueue`, lines 111-119: push the default-merged task, then
`processQueue`. -/
def enqueueOp (o : QueueOptions) (st : QMState) (t : Task) : QMState × List Action :=
  processQueue o { st with queue := st.queue ++ [withDefaults o t] }

/-- One iteration of the `cancelAll` loop, lines 180-185: call `cancel`
when supplied, then broadcast CANCELLED for the entry. -/
def cancelBlock (p : String × RunningEntry) : List Action :=
  (if p.2.task.hasCancel then [Action.cancelCall p.1] else []) ++
    [Action.notify (mkEvent p.1 0 TaskStatus.CANCELLED none)]

/-- `cancelAll`, lines 178-187: clear the pending queue; for each
running entry in insertion order call `cancel` when supplied and
broadcast CANCELLED; clear the running map.  The in-flight promise
chains are untouched (the scheduler cannot revoke them). -/
def cancelAllOp (st : QMState) : QMState × List Action :=
  ({ st with queue := [], running := [] },
   (st.running.map cancelBlock).flatten)

/-- `clearQueue`, lines 145-150. -/
def clearQueueOp (st : QMState) (cancelRunning : Bool) : QMState × List Action :=
  if cancelRunning then
    let r := cancelAllOp st
    ({ r.1 with queue := [] }, r.2)
  else ({ st with queue := [] }, [])

/-- `reprocessFailedTasks`, lines 124-127: `enqueue` each failed task
(the `forEach` snapshot), then reset the failed queue to empty. -/
def reprocessFailedTasksOp (o : QueueOptions) (st : QMState) : QMState × List Action :=
  let r := st.failedQueue.foldl
    (fun (acc : QMState × List Action) t =>
      let r := enqueueOp o acc.1 t
      (r.1, acc.2 ++ r.2))
    (st, [])
  ({ r.1 with failedQueue := [] }, r.2)

/-- Resumption after `await task.execute(...)` fulfils (lines 225-226):
broadcast COMPLETED (progress 100) and delete the running entry —
with no check that the entry is still present — then the `await
this.executeTask(task)` of line 207 resumes and line 212 re-runs
`processQueue`. -/
def resolveOk (o : QueueOptions) (st : QMState) (i : Nat) : QMState × List Action :=
  match st.inFlight[i]? with
  | some a =>
    if a.phase = Phase.executing then
      let st1 : QMState :=
        { st with
            running := mapDelete st.running a.task.id
            inFlight := st.inFlight.eraseIdx i }
      let r := processQueue o st1
      (r.1, Action.notify (mkEvent a.task.id 100 TaskStatus.COMPLETED none) :: r.2)
    else (st, [])
  | none => (st, [])

/-- Resumption after `await task.execute(...)` rejects (lines 227-240).
The captured `attempts` is compared with the effective max retries:
below it, broadcast RUNNING-with-error and suspend on the backoff
timer; otherwise broadcast FAILED, push onto the failed queue, delete
the running entry, and resume line 212's `processQueue`. -/
def rejectAttempt (o : QueueOptions) (st : QMState) (i : Nat) : QMState × List Action :=
  match st.inFlight[i]? with
  | some a =>
    if a.phase = Phase.executing then
      if a.captured < effMaxRetries o a.task then
        ({ st with inFlight := st.inFlight.set i ⟨a.task, a.captured, Phase.backoff⟩ },
         [Action.notify (mkEvent a.task.id 0 TaskStatus.RUNNING (some "error"))])
      else
        let st1 : QMState :=
          { st with
              failedQueue := st.failedQueue ++ [a.task]
              running := mapDelete st.running a.task.id
              inFlight := st.inFlight.eraseIdx i }
        let r := processQueue o st1
        (r.1, Action.notify (mkEvent a.task.id 0 TaskStatus.FAILED (some "error")) :: r.2)
    else (st, [])
  | none => (st, [])

/-- Backoff timer expiry (lines 232-234): `running.set(task.id,
{task, attempts: attempts + 1})` — unconditionally, re-inserting the
key if it was removed meanwhile — then `executeTask` recurses, finds
the just-set entry (so the newly captured `attempts` is `captured + 1`)
and invokes `task.execute` again. -/
def timerFire (st : QMState) (i : Nat) : QMState × List Action :=
  match st.inFlight[i]? with
  | some a =>
    if a.phase = Phase.backoff then
      ({ st with
          running := mapSet st.running a.task.id ⟨a.task, a.captured + 1⟩
          inFlight := st.inFlight.set i ⟨a.task, a.captured + 1, Phase.executing⟩ },
       [Action.executeCall a.task.id])
    else (st, [])
  | none => (st, [])

/-- A task invoking its progress callback (line 224): the scheduler
forwards `progress.progress`, `progress.status`, `progress.error`
unmodified — no clamping, no timestamping — under the task's own id. -/
def reportProgress (st : QMState) (i : Nat) (p : Int) (s : TaskStatus)
    (err : Option String) : QMState × List Action :=
  match st.inFlight[i]? with
  | some a => (st, [Action.notify (mkEvent a.task.id p s err)])
  | none => (st, [])

/-- Environment events: public API calls and asynchronous resumptions.
Outcome events address an in-flight attempt by its current index. -/
inductive Event where
  | enqueue (t : Task)
  | cancelAll
  | clearQueue (b : Bool)
  | reprocess
  | resolveOk (i : Nat)
  | reject (i : Nat)
  | timerFire (i : Nat)
  | report (i : Nat) (p : Int) (s : TaskStatus) (err : Option String)

/-- One synchronous segment. -/
def step (o : QueueOptions) (st : QMState) : Event → QMState × List Action
  | Event.enqueue t => enqueueOp o st t
  | Event.cancelAll => cancelAllOp st
  | Event.clearQueue b => clearQueueOp st b
  | Event.reprocess => reprocessFailedTasksOp o st
  | Event.resolveOk i => resolveOk o st i
  | Event.reject i => rejectAttempt o st i
  | Event.timerFire i => timerFire st i
  | Event.report i p s err => reportProgress st i p s err

/-- Run a sequence of events, accumulating the emitted actions. -/
def runFull (o : QueueOptions) (st : QMState) : List Event → QMState × List Action
  | [] => (st, [])
  | e :: es =>
    let r := step o st e
    let r2 := runFull o r.1 es
    (r2.1, r.2 ++ r2.2)

/-- Fresh scheduler state (lines 82-84). -/
def initState : QMState := {}

/-! ### Derived observation helpers -/

/-- Keys of the running map, in insertion order. -/
def keys (m : List (String × RunningEntry)) : List String := m.map Prod.fst

/-- Id of an in-flight attempt. -/
def aid (a : Attempt) : String := a.task.id

/-- Ids a new task id must avoid for the bounded-concurrency invariant:
ids of pending tasks and of in-flight attempts. -/
def liveIds (st : QMState) : List String :=
  st.queue.map Task.id ++ st.inFlight.map aid

/-- The `ProgressEvent`s an observer receives, in order, from a list of
emitted actions. -/
def notifyEvents (as : List Action) : List TaskProgress :=
  as.filterMap (fun a => match a with | Action.notify e => some e | _ => none)

/-- The task id an action concerns. -/
def actId : Action → String
  | Action.notify e => e.taskId
  | Action.cancelCall i => i
  | Action.executeCall i => i

/-! ### Association-list (JS `Map`) lemmas -/

theorem keys_mapSet_of_mem {m : List (String × RunningEntry)} {k : String}
    {v : RunningEntry} (h : k ∈ keys m) : keys (mapSet m k v) = keys m := by
  unfold mapSet
  rw [if_pos]
  · unfold keys
    rw [List.map_map]
    apply List.map_congr_left
    intro p _
    by_cases hpk : p.1 = k
    · simp [hpk]
    · simp [hpk]
  · rw [List.any_eq_true]
    obtain ⟨p, hp, hpk⟩ := List.mem_map.mp h
    exact ⟨p, hp, by simp [hpk]⟩

theorem keys_mapSet_of_not_mem {m : List (String × RunningEntry)} {k : String}
    {v : RunningEntry} (h : k ∉ keys m) : keys (mapSet m k v) = keys m ++ [k] := by
  unfold mapSet
  rw [if_neg]
  · simp [keys]
  · intro hany
    obtain ⟨p, hp, hpk⟩ := List.any_eq_true.mp hany
    exact h (List.mem_map.mpr ⟨p, hp, by simpa using hpk⟩)

theorem length_keys (m : List (String × RunningEntry)) : (keys m).length = m.length :=
  List.length_map m Prod.fst

theorem length_mapSet_of_mem {m : List (String × RunningEntry)} {k : String}
    {v : RunningEntry} (h : k ∈ keys m) : (mapSet m k v).length = m.length := by
  have := keys_mapSet_of_mem (v := v) h
  have h1 := length_keys (mapSet m k v)
  have h2 := length_keys m
  rw [this] at h1
  omega

theorem length_mapSet_le (m : List (String × RunningEntry)) (k : String)
    (v : RunningEntry) : (mapSet m k v).length ≤ m.length + 1 := by
  unfold mapSet
  split
  · simp
  · simp

theorem mem_keys_mapSet_self (m : List (String × RunningEntry)) (k : String)
    (v : RunningEntry) : k ∈ keys (mapSet m k v) := by
  by_cases h : k ∈ keys m
  · rw [keys_mapSet_of_mem h]; exact h
  · rw [keys_mapSet_of_not_mem h]; simp

theorem mem_keys_mapSet_of_mem {m : List (String × RunningEntry)} {j k : String}
    {v : RunningEntry} (h : j ∈ keys m) : j ∈ keys (mapSet m k v) := by
  by_cases hk : k ∈ keys m
  · rw [keys_mapSet_of_mem hk]; exact h
  · rw [keys_mapSet_of_not_mem hk]; exact List.mem_append_left _ h

theorem nodup_keys_mapSet {m : List (String × RunningEntry)} {k : String}
    {v : RunningEntry} (h : (keys m).Nodup) : (keys (mapSet m k v)).Nodup := by
  by_cases hk : k ∈ keys m
  · rw [keys_mapSet_of_mem hk]; exact h
  · rw [keys_mapSet_of_not_mem hk]
    rw [List.nodup_append]
    exact ⟨h, List.nodup_singleton k, fun j hj hj1 => hk ((List.mem_singleton.mp hj1) ▸ hj)⟩

theorem keys_mapDelete (m : List (String × RunningEntry)) (k : String) :
    keys (mapDelete m k) = (keys m).filter (fun j => j ≠ k) := by
  induction m with
  | nil => rfl
  | cons p m ih =>
    simp only [mapDelete, keys, decide_not] at ih ⊢
    by_cases hpk : p.1 = k
    · simp [List.filter_cons, hpk, ih]
    · simp [List.filter_cons, hpk, ih]

theorem nodup_keys_mapDelete {m : List (String × RunningEntry)} {k : String}
    (h : (keys m).Nodup) : (keys (mapDelete m k)).Nodup := by
  rw [keys_mapDelete]; exact h.filter _

theorem mem_keys_mapDelete {m : List (String × RunningEntry)} {j k : String}
    (h : j ∈ keys m) (hne : j ≠ k) : j ∈ keys (mapDelete m k) := by
  rw [keys_mapDelete]
  exact List.mem_filter.mpr ⟨h, by simp [hne]⟩

theorem mem_of_mem_keys_mapDelete {m : List (String × RunningEntry)} {j k : String}
    (h : j ∈ keys (mapDelete m k)) : j ∈ keys m ∧ j ≠ k := by
  rw [keys_mapDelete] at h
  have := List.mem_filter.mp h
  exact ⟨this.1, by simpa using this.2⟩

theorem length_mapDelete_le (m : List (String × RunningEntry)) (k : String) :
    (mapDelete m k).length ≤ m.length :=
  List.length_filter_le _ m

/-! ### `eraseIdx` / `set` helpers -/

theorem map_eraseIdx_comm {α β : Type} (f : α → β) (l : List α) (i : Nat) :
    (l.eraseIdx i).map f = (l.map f).eraseIdx i := by
  induction l generalizing i with
  | nil => simp [List.eraseIdx]
  | cons a l ih =>
    cases i with
    | zero => simp [List.eraseIdx]
    | succ i => simp [List.eraseIdx, ih]

theorem nodup_not_mem_eraseIdx {α : Type} {l : List α} {i : Nat} {x : α}
    (hn : l.Nodup) (hi : l[i]? = some x) : x ∉ l.eraseIdx i := by
  induction l generalizing i with
  | nil => simp at hi
  | cons a l ih =>
    cases i with
    | zero =>
      simp only [List.getElem?_cons_zero, Option.some.injEq] at hi
      subst hi
      simpa [List.eraseIdx] using (List.nodup_cons.mp hn).1
    | succ i =>
      simp only [List.getElem?_cons_succ] at hi
      have hx : x ∈ l := List.getElem?_mem hi
      intro hmem
      simp only [List.eraseIdx_cons_succ, List.mem_cons] at hmem
      rcases hmem with h | h
      · exact (List.nodup_cons.mp hn).1 (h ▸ hx)
      · exact ih (List.nodup_cons.mp hn).2 hi h

theorem mem_eraseIdx_of_mem_of_ne {α : Type} {l : List α} {i : Nat} {x y : α}
    (hx : x ∈ l) (hi : l[i]? = some y) (hne : x ≠ y) : x ∈ l.eraseIdx i := by
  induction l generalizing i with
  | nil => simp at hx
  | cons a l ih =>
    cases i with
    | zero =>
      simp only [List.getElem?_cons_zero, Option.some.injEq] at hi
      subst hi
      rcases List.mem_cons.mp hx with h | h
      · exact absurd h hne
      · simpa [List.eraseIdx]
    | succ i =>
      simp only [List.getElem?_cons_succ] at hi
      rcases List.mem_cons.mp hx with h | h
      · simp [List.eraseIdx_cons_succ, h]
      · simp [List.eraseIdx_cons_succ, ih h hi]

theorem set_getElem?_self {α : Type} {l : List α} {i : Nat} {x : α}
    (hi : l[i]? = some x) : l.set i x = l := by
  apply List.ext_getElem?
  intro n
  rw [List.getElem?_set]
  by_cases hn : i = n
  · subst hn
    have : i < l.length := by
      by_contra hlen
      rw [List.getElem?_eq_none (by omega)] at hi
      exact Option.noConfusion hi
    simp [this, hi.symm]
  · simp [hn]

/-! ### Sort lemmas: the line-198 comparator is a stable descending
priority sort -/

/-- Membership test for a priority class. -/
def priEq (p : Int) (t : Task) : Bool := taskPri t = p

/-- Descending-priority sortedness. -/
def SortedDesc (l : List Task) : Prop :=
  l.Pairwise (fun a b => taskPri b ≤ taskPri a)

theorem insertDesc_perm (t : Task) (acc : List Task) :
    (insertDesc t acc).Perm (t :: acc) := by
  induction acc with
  | nil => exact List.Perm.refl _
  | cons u us ih =>
    rw [insertDesc]
    split
    · exact (ih.cons u).trans (List.Perm.swap t u us)
    · exact List.Perm.refl _

theorem insertDesc_sorted {acc : List Task} (t : Task) (h : SortedDesc acc) :
    SortedDesc (insertDesc t acc) := by
  induction acc with
  | nil => exact List.pairwise_singleton _ _
  | cons u us ih =>
    rw [insertDesc]
    obtain ⟨hu, hus⟩ := List.pairwise_cons.mp h
    split
    · next hle =>
      refine List.pairwise_cons.mpr ⟨?_, ih hus⟩
      intro b hb
      rcases List.mem_cons.mp (((insertDesc_perm t us).mem_iff).mp hb) with hb1 | hb2
      · subst hb1
        simpa [taskLE] using hle
      · exact hu b hb2
    · next hle =>
      have hut : taskPri u < taskPri t := by
        simp only [taskLE, decide_eq_true_eq] at hle
        omega
      refine List.pairwise_cons.mpr ⟨?_, h⟩
      intro b hb
      rcases List.mem_cons.mp hb with hb1 | hb2
      · subst hb1; omega
      · have := hu b hb2
        omega

theorem filter_insertDesc (p : Int) {acc : List Task} (t : Task) (h : SortedDesc acc) :
    (insertDesc t acc).filter (priEq p) =
      if priEq p t then acc.filter (priEq p) ++ [t] else acc.filter (priEq p) := by
  induction acc with
  | nil =>
    rw [insertDesc]
    split <;> simp_all [List.filter]
  | cons u us ih =>
    obtain ⟨hu, hus⟩ := List.pairwise_cons.mp h
    rw [insertDesc]
    split
    · next hle =>
      rw [List.filter_cons, List.filter_cons, ih hus]
      by_cases hup : priEq p u <;> by_cases htp : priEq p t <;> simp [hup, htp]
    · next hle =>
      have hut : taskPri u < taskPri t := by
        simp only [taskLE, decide_eq_true_eq] at hle
        omega
      by_cases htp : priEq p t
      · have htp2 : taskPri t = p := by simpa [priEq] using htp
        have hnone : (u :: us).filter (priEq p) = [] := by
          rw [List.filter_eq_nil_iff]
          intro b hb
          have hble : taskPri b ≤ taskPri u := by
            rcases List.mem_cons.mp hb with hb1 | hb2
            · exact hb1 ▸ le_refl _
            · exact hu b hb2
          simp only [priEq, decide_eq_true_eq]
          omega
        rw [List.filter_cons_of_pos (by simpa [priEq] using htp2), hnone]
        simp [htp]
      · rw [List.filter_cons_of_neg (by simpa [priEq] using htp)]
        simp [htp]

theorem foldl_insert_props (l : List Task) :
    ∀ acc : List Task, SortedDesc acc →
      SortedDesc (l.foldl (fun a t => insertDesc t a) acc) ∧
      ∀ p : Int, (l.foldl (fun a t => insertDesc t a) acc).filter (priEq p) =
        acc.filter (priEq p) ++ l.filter (priEq p) := by
  induction l with
  | nil => intro acc h; exact ⟨h, fun p => by simp⟩
  | cons t l ih =>
    intro acc h
    simp only [List.foldl_cons]
    obtain ⟨hs, hf⟩ := ih (insertDesc t acc) (insertDesc_sorted t h)
    refine ⟨hs, fun p => ?_⟩
    rw [hf p, filter_insertDesc p t h, List.filter_cons]
    by_cases htp : priEq p t
    · simp [htp]
    · simp [htp]

theorem foldl_insert_perm (l : List Task) :
    ∀ acc : List Task, (l.foldl (fun a t => insertDesc t a) acc).Perm (acc ++ l) := by
  induction l with
  | nil => intro acc; simp
  | cons t l ih =>
    intro acc
    simp only [List.foldl_cons]
    refine (ih (insertDesc t acc)).trans ?_
    refine (((insertDesc_perm t acc).append_right l).trans ?_)
    show (t :: (acc ++ l)).Perm (acc ++ t :: l)
    exact List.perm_middle.symm

theorem sortQueue_perm (q : List Task) : (sortQueue q).Perm q := by
  have := foldl_insert_perm q []
  simpa [sortQueue] using this

theorem sortQueue_sorted (q : List Task) : SortedDesc (sortQueue q) :=
  (foldl_insert_props q [] (List.Pairwise.nil)).1

/-- Stability of the line-198 sort: each priority class keeps its
relative (enqueue) order. -/
theorem sortQueue_filter (q : List Task) (p : Int) :
    (sortQueue q).filter (priEq p) = q.filter (priEq p) := by
  have := (foldl_insert_props q [] (List.Pairwise.nil)).2 p
  simpa [sortQueue] using this

/-- The head of the sorted queue has maximal priority. -/
theorem sortQueue_head_max {q : List Task} {t : Task} {rest : List Task}
    (h : sortQueue q = t :: rest) : ∀ u ∈ q, taskPri u ≤ taskPri t := by
  intro u hu
  have hmem : u ∈ t :: rest := h ▸ ((sortQueue_perm q).mem_iff).mpr hu
  rcases List.mem_cons.mp hmem with he | hr
  · exact le_of_eq (congrArg taskPri he)
  · have hs := sortQueue_sorted q
    rw [h] at hs
    exact (List.pairwise_cons.mp hs).1 u hr

/-- The head of the sorted queue is the first element of the queue in
its own priority class (the stable tie-break). -/
theorem sortQueue_head_first_tie {q : List Task} {t : Task} {rest : List Task}
    (h : sortQueue q = t :: rest) :
    (q.filter (priEq (taskPri t))).head? = some t := by
  rw [← sortQueue_filter, h, List.filter_cons_of_pos (by simp [priEq])]
  rfl

/-! ### Shape lemmas for `processQueue` -/

theorem processQueue_eq_of_skip {o : QueueOptions} {st : QMState}
    (hguard : st.running.length ≥ o.concurrency ∨ st.queue.length = 0) :
    processQueue o st = (st, []) := by
  unfold processQueue
  rw [if_pos hguard]

theorem processQueue_eq_of_select {o : QueueOptions} {st : QMState} {t : Task}
    {rest : List Task}
    (hguard : ¬ (st.running.length ≥ o.concurrency ∨ st.queue.length = 0))
    (hsort : sortQueue st.queue = t :: rest) :
    processQueue o st =
      ({ st with
          queue := rest
          running := mapSet st.running t.id ⟨t, 0⟩
          inFlight := st.inFlight ++ [⟨t, 0, Phase.executing⟩] },
       [Action.notify (mkEvent t.id 0 TaskStatus.RUNNING none),
        Action.executeCall t.id]) := by
  unfold processQueue
  rw [if_neg hguard, hsort]

theorem sortQueue_ne_nil {q : List Task} (h : q.length ≠ 0) : sortQueue q ≠ [] := by
  intro he
  have hl := (sortQueue_perm q).length_eq
  rw [he] at hl
  exact h hl.symm

theorem withDefaults_id (o : QueueOptions) (t : Task) :
    (withDefaults o t).id = t.id := rfl

/-! ### The bounded-concurrency invariant -/

/-- Invariant tying the running map to the in-flight attempts:
unique keys, pending/in-flight ids pairwise distinct, every in-flight
attempt keeps its entry in the running map (in particular through its
backoff wait), the running keys all belong to in-flight attempts, and
the running map is within the concurrency budget. -/
structure Inv (o : QueueOptions) (st : QMState) : Prop where
  kn : (keys st.running).Nodup
  qf : (st.queue.map Task.id ++ st.inFlight.map aid).Nodup
  fk : ∀ a ∈ st.inFlight, aid a ∈ keys st.running
  kf : ∀ k ∈ keys st.running, k ∈ st.inFlight.map aid
  bound : st.running.length ≤ o.concurrency

theorem inv_init (o : QueueOptions) : Inv o initState := by
  constructor <;> simp [initState, keys]

theorem inv_processQueue {o : QueueOptions} {st : QMState} (h : Inv o st) :
    Inv o (processQueue o st).1 := by
  by_cases hg : st.running.length ≥ o.concurrency ∨ st.queue.length = 0
  · rw [processQueue_eq_of_skip hg]; exact h
  · cases hsort : sortQueue st.queue with
    | nil =>
      exact absurd hsort (sortQueue_ne_nil (by intro h0; exact hg (Or.inr h0)))
    | cons t rest =>
      rw [processQueue_eq_of_select hg hsort]
      have hlt : st.running.length < o.concurrency := by
        rcases Nat.lt_or_ge st.running.length o.concurrency with h1 | h1
        · exact h1
        · exact absurd (Or.inl h1) hg
      have hperm : ((t :: rest).map Task.id).Perm (st.queue.map Task.id) :=
        (hsort ▸ sortQueue_perm st.queue).map Task.id
      have hqn : (st.queue.map Task.id).Nodup := (List.nodup_append.mp h.qf).1
      have hfn : (st.inFlight.map aid).Nodup := (List.nodup_append.mp h.qf).2.1
      have hdisj : (st.queue.map Task.id).Disjoint (st.inFlight.map aid) :=
        (List.nodup_append.mp h.qf).2.2
      have htn : (t.id :: rest.map Task.id).Nodup := by
        have := (hperm.nodup_iff).mpr hqn
        simpa using this
      have htq : t.id ∈ st.queue.map Task.id := by
        apply hperm.subset
        simp
      have hrq : ∀ j ∈ rest.map Task.id, j ∈ st.queue.map Task.id := by
        intro j hj
        apply hperm.subset
        simp [hj]
      have htf : t.id ∉ st.inFlight.map aid := fun hx => hdisj htq hx
      have htk : t.id ∉ keys st.running := fun hk => htf (h.kf _ hk)
      have hkeys : keys (mapSet st.running t.id ⟨t, 0⟩) = keys st.running ++ [t.id] :=
        keys_mapSet_of_not_mem htk
      constructor
      · rw [hkeys, List.nodup_append]
        exact ⟨h.kn, List.nodup_singleton _,
          fun j hj hj1 => htk ((List.mem_singleton.mp hj1) ▸ hj)⟩
      · show (rest.map Task.id ++ (st.inFlight ++ [(⟨t, 0, Phase.executing⟩ : Attempt)]).map aid).Nodup
        rw [List.map_append]
        have hppp : (rest.map Task.id ++ (st.inFlight.map aid ++ [aid ⟨t, 0, Phase.executing⟩])).Perm
            (st.queue.map Task.id ++ st.inFlight.map aid) := by
          have e1 : rest.map Task.id ++ (st.inFlight.map aid ++ [aid ⟨t, 0, Phase.executing⟩]) =
              (rest.map Task.id ++ st.inFlight.map aid) ++ [t.id] := by
            simp [aid]
          rw [e1]
          have p2 : ((rest.map Task.id ++ st.inFlight.map aid) ++ [t.id]).Perm
              (t.id :: (rest.map Task.id ++ st.inFlight.map aid)) :=
            List.perm_append_singleton _ _
          refine p2.trans ?_
          show ((t.id :: rest.map Task.id) ++ st.inFlight.map aid).Perm _
          exact hperm.append_right _
        exact (hppp.nodup_iff).mpr h.qf
      · intro a ha
        rcases List.mem_append.mp ha with hold | hnew
        · exact mem_keys_mapSet_of_mem (h.fk a hold)
        · have : a = ⟨t, 0, Phase.executing⟩ := List.mem_singleton.mp hnew
          subst this
          exact mem_keys_mapSet_self _ _ _
      · intro k hk
        rw [hkeys] at hk
        rw [List.map_append]
        rcases List.mem_append.mp hk with hold | hnew
        · exact List.mem_append_left _ (h.kf k hold)
        · exact List.mem_append_right _ (by simpa [aid] using hnew)
      · calc (mapSet st.running t.id ⟨t, 0⟩).length ≤ st.running.length + 1 :=
              length_mapSet_le _ _ _
          _ ≤ o.concurrency := hlt

theorem inv_failedQueue_irrel {o : QueueOptions} {st : QMState} {fq : List Task}
    (h : Inv o st) : Inv o { st with failedQueue := fq } :=
  ⟨h.kn, h.qf, h.fk, h.kf, h.bound⟩

theorem inv_enqueueOp {o : QueueOptions} {st : QMState} {t : Task}
    (h : Inv o st) (hfresh : t.id ∉ liveIds st) : Inv o (enqueueOp o st t).1 := by
  apply inv_processQueue
  have hq : t.id ∉ st.queue.map Task.id :=
    fun hx => hfresh (List.mem_append_left _ hx)
  have hf : t.id ∉ st.inFlight.map aid :=
    fun hx => hfresh (List.mem_append_right _ hx)
  refine ⟨h.kn, ?_, h.fk, h.kf, h.bound⟩
  show ((st.queue ++ [withDefaults o t]).map Task.id ++ st.inFlight.map aid).Nodup
  rw [List.map_append]
  have e1 : (st.queue.map Task.id ++ [withDefaults o t].map Task.id) ++ st.inFlight.map aid =
      st.queue.map Task.id ++ [t.id] ++ st.inFlight.map aid := by
    simp [withDefaults_id]
  rw [e1, List.append_assoc]
  have e2 : st.queue.map Task.id ++ ([t.id] ++ st.inFlight.map aid) =
      st.queue.map Task.id ++ t.id :: st.inFlight.map aid := rfl
  rw [e2]
  have hp : (st.queue.map Task.id ++ t.id :: st.inFlight.map aid).Perm
      (t.id :: (st.queue.map Task.id ++ st.inFlight.map aid)) := List.perm_middle
  rw [hp.nodup_iff]
  exact List.nodup_cons.mpr ⟨fun hx => hfresh hx, h.qf⟩

theorem inv_remove {o : QueueOptions} {st : QMState} {i : Nat} {a : Attempt}
    (h : Inv o st) (hi : st.inFlight[i]? = some a) :
    Inv o { st with running := mapDelete st.running (aid a),
                    inFlight := st.inFlight.eraseIdx i } := by
  have hfn : (st.inFlight.map aid).Nodup := (List.nodup_append.mp h.qf).2.1
  have hmi : (st.inFlight.map aid)[i]? = some (aid a) := by
    rw [List.getElem?_map, hi]; rfl
  constructor
  · exact nodup_keys_mapDelete h.kn
  · show (st.queue.map Task.id ++ (st.inFlight.eraseIdx i).map aid).Nodup
    rw [map_eraseIdx_comm]
    exact ((List.Sublist.refl _).append
      (List.eraseIdx_sublist _ i)).nodup h.qf
  · intro b hb
    have hbmem : b ∈ st.inFlight := (List.eraseIdx_sublist _ i).mem hb
    have hbid : aid b ∈ (st.inFlight.eraseIdx i).map aid := List.mem_map_of_mem _ hb
    rw [map_eraseIdx_comm] at hbid
    have hne : aid b ≠ aid a := by
      intro he
      exact nodup_not_mem_eraseIdx hfn hmi (he ▸ hbid)
    exact mem_keys_mapDelete (h.fk b hbmem) hne
  · intro k hk
    obtain ⟨hk1, hk2⟩ := mem_of_mem_keys_mapDelete hk
    have := h.kf k hk1
    show k ∈ (st.inFlight.eraseIdx i).map aid
    rw [map_eraseIdx_comm]
    exact mem_eraseIdx_of_mem_of_ne this hmi hk2
  · exact le_trans (length_mapDelete_le _ _) h.bound

theorem resolveOk_eq {o : QueueOptions} {st : QMState} {i : Nat} {a : Attempt}
    (hi : st.inFlight[i]? = some a) (hp : a.phase = Phase.executing) :
    resolveOk o st i =
      ((processQueue o ⟨st.queue, st.failedQueue, mapDelete st.running a.task.id, st.inFlight.eraseIdx i⟩).1,
       Action.notify (mkEvent a.task.id 100 TaskStatus.COMPLETED none) ::
         (processQueue o ⟨st.queue, st.failedQueue, mapDelete st.running a.task.id, st.inFlight.eraseIdx i⟩).2) := by
  simp [resolveOk, hi, hp]

theorem rejectAttempt_eq_retry {o : QueueOptions} {st : QMState} {i : Nat} {a : Attempt}
    (hi : st.inFlight[i]? = some a) (hp : a.phase = Phase.executing)
    (hr : a.captured < effMaxRetries o a.task) :
    rejectAttempt o st i =
      (⟨st.queue, st.failedQueue, st.running, st.inFlight.set i ⟨a.task, a.captured, Phase.backoff⟩⟩,
       [Action.notify (mkEvent a.task.id 0 TaskStatus.RUNNING (some "error"))]) := by
  simp [rejectAttempt, hi, hp, hr]

theorem rejectAttempt_eq_final {o : QueueOptions} {st : QMState} {i : Nat} {a : Attempt}
    (hi : st.inFlight[i]? = some a) (hp : a.phase = Phase.executing)
    (hr : ¬ a.captured < effMaxRetries o a.task) :
    rejectAttempt o st i =
      ((processQueue o ⟨st.queue, st.failedQueue ++ [a.task], mapDelete st.running a.task.id, st.inFlight.eraseIdx i⟩).1,
       Action.notify (mkEvent a.task.id 0 TaskStatus.FAILED (some "error")) ::
         (processQueue o ⟨st.queue, st.failedQueue ++ [a.task], mapDelete st.running a.task.id, st.inFlight.eraseIdx i⟩).2) := by
  simp [rejectAttempt, hi, hp, hr]

theorem timerFire_eq {st : QMState} {i : Nat} {a : Attempt}
    (hi : st.inFlight[i]? = some a) (hp : a.phase = Phase.backoff) :
    timerFire st i =
      (⟨st.queue, st.failedQueue, mapSet st.running a.task.id ⟨a.task, a.captured + 1⟩, st.inFlight.set i ⟨a.task, a.captured + 1, Phase.executing⟩⟩,
       [Action.executeCall a.task.id]) := by
  simp [timerFire, hi, hp]

theorem resolveOk_eq_of_none {o : QueueOptions} {st : QMState} {i : Nat}
    (hi : st.inFlight[i]? = none) : resolveOk o st i = (st, []) := by
  simp [resolveOk, hi]

theorem resolveOk_eq_of_backoff {o : QueueOptions} {st : QMState} {i : Nat} {a : Attempt}
    (hi : st.inFlight[i]? = some a) (hp : ¬ a.phase = Phase.executing) :
    resolveOk o st i = (st, []) := by
  simp [resolveOk, hi, hp]

theorem rejectAttempt_eq_of_none {o : QueueOptions} {st : QMState} {i : Nat}
    (hi : st.inFlight[i]? = none) : rejectAttempt o st i = (st, []) := by
  simp [rejectAttempt, hi]

theorem rejectAttempt_eq_of_backoff {o : QueueOptions} {st : QMState} {i : Nat} {a : Attempt}
    (hi : st.inFlight[i]? = some a) (hp : ¬ a.phase = Phase.executing) :
    rejectAttempt o st i = (st, []) := by
  simp [rejectAttempt, hi, hp]

theorem timerFire_eq_of_none {st : QMState} {i : Nat}
    (hi : st.inFlight[i]? = none) : timerFire st i = (st, []) := by
  simp [timerFire, hi]

theorem timerFire_eq_of_executing {st : QMState} {i : Nat} {a : Attempt}
    (hi : st.inFlight[i]? = some a) (hp : ¬ a.phase = Phase.backoff) :
    timerFire st i = (st, []) := by
  simp [timerFire, hi, hp]

theorem inv_resolveOk {o : QueueOptions} {st : QMState} {i : Nat}
    (h : Inv o st) : Inv o (resolveOk o st i).1 := by
  cases hi : st.inFlight[i]? with
  | none => rw [resolveOk_eq_of_none hi]; exact h
  | some a =>
    by_cases hp : a.phase = Phase.executing
    · rw [resolveOk_eq (o := o) hi hp]
      exact inv_processQueue (inv_remove h hi)
    · rw [resolveOk_eq_of_backoff hi hp]; exact h

theorem inv_rejectAttempt {o : QueueOptions} {st : QMState} {i : Nat}
    (h : Inv o st) : Inv o (rejectAttempt o st i).1 := by
  cases hi : st.inFlight[i]? with
  | none => rw [rejectAttempt_eq_of_none hi]; exact h
  | some a =>
    by_cases hp : a.phase = Phase.executing
    · by_cases hr : a.captured < effMaxRetries o a.task
      · rw [rejectAttempt_eq_retry hi hp hr]
        have ha : a ∈ st.inFlight := List.getElem?_mem hi
        have hids : (st.inFlight.set i ⟨a.task, a.captured, Phase.backoff⟩).map aid =
            st.inFlight.map aid := by
          rw [List.map_set]
          exact set_getElem?_self (by rw [List.getElem?_map, hi]; rfl)
        refine ⟨h.kn, ?_, ?_, ?_, h.bound⟩
        · show (st.queue.map Task.id ++
            (st.inFlight.set i ⟨a.task, a.captured, Phase.backoff⟩).map aid).Nodup
          rw [hids]; exact h.qf
        · intro b hb
          rcases List.mem_or_eq_of_mem_set hb with hold | he
          · exact h.fk b hold
          · subst he; exact h.fk a ha
        · intro k hk
          show k ∈ (st.inFlight.set i ⟨a.task, a.captured, Phase.backoff⟩).map aid
          rw [hids]; exact h.kf k hk
      · rw [rejectAttempt_eq_final hi hp hr]
        exact inv_processQueue (inv_failedQueue_irrel (inv_remove h hi))
    · rw [rejectAttempt_eq_of_backoff hi hp]; exact h

theorem inv_timerFire {o : QueueOptions} {st : QMState} {i : Nat}
    (h : Inv o st) : Inv o (timerFire st i).1 := by
  cases hi : st.inFlight[i]? with
  | none => rw [timerFire_eq_of_none hi]; exact h
  | some a =>
    by_cases hp : a.phase = Phase.backoff
    · rw [timerFire_eq hi hp]
      have ha : a ∈ st.inFlight := List.getElem?_mem hi
      have hmem : a.task.id ∈ keys st.running := h.fk a ha
      have hkeys : keys (mapSet st.running a.task.id ⟨a.task, a.captured + 1⟩) =
          keys st.running := keys_mapSet_of_mem hmem
      have hids : (st.inFlight.set i ⟨a.task, a.captured + 1, Phase.executing⟩).map aid =
          st.inFlight.map aid := by
        rw [List.map_set]
        exact set_getElem?_self (by rw [List.getElem?_map, hi]; rfl)
      refine ⟨?_, ?_, ?_, ?_, ?_⟩
      · show (keys (mapSet st.running a.task.id ⟨a.task, a.captured + 1⟩)).Nodup
        rw [hkeys]; exact h.kn
      · show (st.queue.map Task.id ++
          (st.inFlight.set i ⟨a.task, a.captured + 1, Phase.executing⟩).map aid).Nodup
        rw [hids]; exact h.qf
      · intro b hb
        rcases List.mem_or_eq_of_mem_set hb with hold | he
        · exact mem_keys_mapSet_of_mem (h.fk b hold)
        · subst he; exact mem_keys_mapSet_self _ _ _
      · intro k hk
        show k ∈ (st.inFlight.set i ⟨a.task, a.captured + 1, Phase.executing⟩).map aid
        rw [hids]
        apply h.kf k
        show k ∈ keys st.running
        rw [← hkeys]
        exact hk
      · show (mapSet st.running a.task.id ⟨a.task, a.captured + 1⟩).length ≤ o.concurrency
        rw [length_mapSet_of_mem hmem]; exact h.bound
    · rw [timerFire_eq_of_executing hi hp]; exact h

theorem inv_clearQueueFalse {o : QueueOptions} {st : QMState}
    (h : Inv o st) : Inv o (clearQueueOp st false).1 := by
  unfold clearQueueOp
  simp only [Bool.false_eq_true, if_false]
  refine ⟨h.kn, ?_, h.fk, h.kf, h.bound⟩
  show (([] : List Task).map Task.id ++ st.inFlight.map aid).Nodup
  simp only [List.map_nil, List.nil_append]
  exact (List.nodup_append.mp h.qf).2.1

theorem reportProgress_state (st : QMState) (i : Nat) (p : Int) (s : TaskStatus)
    (err : Option String) : (reportProgress st i p s err).1 = st := by
  unfold reportProgress
  cases st.inFlight[i]? <;> rfl

/-- The live ids are only permuted by an admission. -/
theorem liveIds_processQueue_perm (o : QueueOptions) (st : QMState) :
    (liveIds (processQueue o st).1).Perm (liveIds st) := by
  by_cases hg : st.running.length ≥ o.concurrency ∨ st.queue.length = 0
  · rw [processQueue_eq_of_skip hg]
  · cases hsort : sortQueue st.queue with
    | nil =>
      exact absurd hsort (sortQueue_ne_nil (by intro h0; exact hg (Or.inr h0)))
    | cons t rest =>
      rw [processQueue_eq_of_select hg hsort]
      have hperm : ((t :: rest).map Task.id).Perm (st.queue.map Task.id) :=
        (hsort ▸ sortQueue_perm st.queue).map Task.id
      show (rest.map Task.id ++
        (st.inFlight ++ [(⟨t, 0, Phase.executing⟩ : Attempt)]).map aid).Perm (liveIds st)
      simp only [List.map_append, List.map_cons, List.map_nil]
      have e1 : rest.map Task.id ++ (st.inFlight.map aid ++ [aid ⟨t, 0, Phase.executing⟩]) =
          (rest.map Task.id ++ st.inFlight.map aid) ++ [t.id] := by
        simp [aid]
      rw [e1]
      refine (List.perm_append_singleton _ _).trans ?_
      show ((t.id :: rest.map Task.id) ++ st.inFlight.map aid).Perm _
      exact hperm.append_right _

theorem liveIds_enqueueOp_subset {o : QueueOptions} {st : QMState} {t : Task}
    {x : String} (hx : x ∈ liveIds (enqueueOp o st t).1) :
    x ∈ liveIds st ∨ x = t.id := by
  unfold enqueueOp at hx
  have := (liveIds_processQueue_perm o _).subset hx
  unfold liveIds at this
  rcases List.mem_append.mp this with hq | hf
  · rw [List.map_append] at hq
    rcases List.mem_append.mp hq with hq1 | hq2
    · exact Or.inl (List.mem_append_left _ hq1)
    · right
      simpa [withDefaults_id] using hq2
  · exact Or.inl (List.mem_append_right _ hf)

theorem foldl_pair_fst (o : QueueOptions) (l : List Task) (st : QMState)
    (as : List Action) :
    (l.foldl (fun (acc : QMState × List Action) t =>
        let r := enqueueOp o acc.1 t
        (r.1, acc.2 ++ r.2)) (st, as)).1 =
      l.foldl (fun s t => (enqueueOp o s t).1) st := by
  induction l generalizing st as with
  | nil => rfl
  | cons f l ih => exact ih _ _

theorem inv_foldl_enqueue {o : QueueOptions} (l : List Task) (st : QMState)
    (h : Inv o st) (hn : (l.map Task.id).Nodup)
    (hfresh : ∀ t ∈ l, t.id ∉ liveIds st) :
    Inv o (l.foldl (fun s t => (enqueueOp o s t).1) st) := by
  induction l generalizing st with
  | nil => exact h
  | cons f l ih =>
    simp only [List.foldl_cons]
    have hnd : f.id ∉ l.map Task.id ∧ (l.map Task.id).Nodup := by
      rw [List.map_cons] at hn
      exact List.nodup_cons.mp hn
    apply ih _ (inv_enqueueOp h (hfresh f (List.mem_cons_self f l))) hnd.2
    intro t ht hmem
    rcases liveIds_enqueueOp_subset hmem with hold | heq
    · exact hfresh t (List.mem_cons_of_mem _ ht) hold
    · exact hnd.1 (heq ▸ List.mem_map_of_mem Task.id ht)

theorem reprocess_state_eq (o : QueueOptions) (st : QMState) :
    (reprocessFailedTasksOp o st).1 =
      { (st.failedQueue.foldl (fun s t => (enqueueOp o s t).1) st) with
        failedQueue := [] } := by
  unfold reprocessFailedTasksOp
  dsimp only
  rw [foldl_pair_fst]

theorem inv_reprocess {o : QueueOptions} {st : QMState} (h : Inv o st)
    (hn : (st.failedQueue.map Task.id).Nodup)
    (hfresh : ∀ t ∈ st.failedQueue, t.id ∉ liveIds st) :
    Inv o (reprocessFailedTasksOp o st).1 := by
  rw [reprocess_state_eq]
  exact inv_failedQueue_irrel (inv_foldl_enqueue _ _ h hn hfresh)

/-- Event restriction under which the concurrency bound is an invariant:
no cancellation while work is in flight, and no enqueue that duplicates
a pending or in-flight id. -/
def okEvent (st : QMState) : Event → Prop
  | Event.enqueue t => t.id ∉ liveIds st
  | Event.cancelAll => False
  | Event.clearQueue b => b = false
  | Event.reprocess =>
      (st.failedQueue.map Task.id).Nodup ∧ ∀ t ∈ st.failedQueue, t.id ∉ liveIds st
  | _ => True

def OkTrace (o : QueueOptions) : QMState → List Event → Prop
  | _, [] => True
  | st, e :: es => okEvent st e ∧ OkTrace o (step o st e).1 es

theorem inv_step {o : QueueOptions} {st : QMState} {e : Event}
    (h : Inv o st) (hok : okEvent st e) : Inv o (step o st e).1 := by
  cases e with
  | enqueue t => exact inv_enqueueOp h hok
  | cancelAll => exact hok.elim
  | clearQueue b =>
    have hb : b = false := hok
    subst hb
    exact inv_clearQueueFalse h
  | reprocess => exact inv_reprocess h hok.1 hok.2
  | resolveOk i => exact inv_resolveOk h
  | reject i => exact inv_rejectAttempt h
  | timerFire i => exact inv_timerFire h
  | report i p s err =>
    show Inv o (reportProgress st i p s err).1
    rw [reportProgress_state]
    exact h

theorem inv_run {o : QueueOptions} {st : QMState} {evs : List Event}
    (h : Inv o st) (hok : OkTrace o st evs) : Inv o (runFull o st evs).1 := by
  induction evs generalizing st with
  | nil => exact h
  | cons e es ih =>
    show Inv o ((runFull o (step o st e).1 es).1)
    exact ih (inv_step h hok.1) hok.2

/-! ### Unconditional key uniqueness (the running map is keyed by id) -/

theorem kn_processQueue {o : QueueOptions} {st : QMState}
    (h : (keys st.running).Nodup) : (keys (processQueue o st).1.running).Nodup := by
  by_cases hg : st.running.length ≥ o.concurrency ∨ st.queue.length = 0
  · rw [processQueue_eq_of_skip hg]; exact h
  · cases hsort : sortQueue st.queue with
    | nil =>
      exact absurd hsort (sortQueue_ne_nil (by intro h0; exact hg (Or.inr h0)))
    | cons t rest =>
      rw [processQueue_eq_of_select hg hsort]
      exact nodup_keys_mapSet h

theorem kn_foldl_enqueue {o : QueueOptions} (l : List Task) (st : QMState)
    (h : (keys st.running).Nodup) :
    (keys (l.foldl (fun s t => (enqueueOp o s t).1) st).running).Nodup := by
  induction l generalizing st with
  | nil => exact h
  | cons f l ih =>
    simp only [List.foldl_cons]
    exact ih _ (kn_processQueue h)

theorem kn_step {o : QueueOptions} {st : QMState} (e : Event)
    (h : (keys st.running).Nodup) : (keys (step o st e).1.running).Nodup := by
  cases e with
  | enqueue t => exact kn_processQueue h
  | cancelAll => simp [step, cancelAllOp, keys]
  | clearQueue b =>
    cases b with
    | false => exact h
    | true => simp [step, clearQueueOp, cancelAllOp, keys]
  | reprocess =>
    show (keys (reprocessFailedTasksOp o st).1.running).Nodup
    rw [reprocess_state_eq]
    exact kn_foldl_enqueue _ _ h
  | resolveOk i =>
    show (keys (resolveOk o st i).1.running).Nodup
    cases hi : st.inFlight[i]? with
    | none => rw [resolveOk_eq_of_none hi]; exact h
    | some a =>
      by_cases hp : a.phase = Phase.executing
      · rw [resolveOk_eq (o := o) hi hp]
        exact kn_processQueue (nodup_keys_mapDelete h)
      · rw [resolveOk_eq_of_backoff hi hp]; exact h
  | reject i =>
    show (keys (rejectAttempt o st i).1.running).Nodup
    cases hi : st.inFlight[i]? with
    | none => rw [rejectAttempt_eq_of_none hi]; exact h
    | some a =>
      by_cases hp : a.phase = Phase.executing
      · by_cases hr : a.captured < effMaxRetries o a.task
        · rw [rejectAttempt_eq_retry hi hp hr]; exact h
        · rw [rejectAttempt_eq_final hi hp hr]
          exact kn_processQueue (nodup_keys_mapDelete h)
      · rw [rejectAttempt_eq_of_backoff hi hp]; exact h
  | timerFire i =>
    show (keys (timerFire st i).1.running).Nodup
    cases hi : st.inFlight[i]? with
    | none => rw [timerFire_eq_of_none hi]; exact h
    | some a =>
      by_cases hp : a.phase = Phase.backoff
      · rw [timerFire_eq hi hp]
        exact nodup_keys_mapSet h
      · rw [timerFire_eq_of_executing hi hp]; exact h
  | report i p s err =>
    show (keys (reportProgress st i p s err).1.running).Nodup
    rw [reportProgress_state]
    exact h

theorem kn_run (o : QueueOptions) (evs : List Event) (st : QMState)
    (h : (keys st.running).Nodup) : (keys (runFull o st evs).1.running).Nodup := by
  induction evs generalizing st with
  | nil => exact h
  | cons e es ih =>
    show (keys ((runFull o (step o st e).1 es).1.running)).Nodup
    exact ih _ (kn_step e h)

theorem runFull_nil (o : QueueOptions) (st : QMState) : runFull o st [] = (st, []) := rfl

theorem runFull_cons (o : QueueOptions) (st : QMState) (e : Event) (es : List Event) :
    runFull o st (e :: es) =
      ((runFull o (step o st e).1 es).1, (step o st e).2 ++ (runFull o (step o st e).1 es).2) := rfl

/-! ### Concrete fixtures used by the scenario theorems -/

/-- A scheduler constructed with `concurrency: 1` and no other option. -/
def optsC1 : QueueOptions := resolveOptions { concurrency := 1 }

/-- A scheduler constructed with `concurrency: 2` and no other option. -/
def optsC2 : QueueOptions := resolveOptions { concurrency := 2 }

/-- A task allowing one retry. -/
def taskA : Task := { id := "a", maxRetries := some 1 }

/-- A plain task. -/
def taskB : Task := { id := "b" }

/-- A task with no retries. -/
def taskA0 : Task := { id := "a", maxRetries := some 0 }

/-- Two tasks sharing the id `x` (id uniqueness is unenforced), told
apart by their priorities, and a third task with a fresh id. -/
def dupX1 : Task := ⟨"x", some 1, none, none, false⟩

def dupX2 : Task := ⟨"x", some 2, none, none, false⟩

def taskY : Task := { id := "y" }

/-- A task with `maxRetries := R` whose execution always fails. -/
def taskT (R : Nat) : Task := { id := "t", maxRetries := some R }

def taskTD (R : Nat) : Task := withDefaults optsC1 (taskT R)

/-- Priority fixtures for the tie-break scenario (priorities 5, 1, 5). -/
def taskP1 : Task := ⟨"p1", some 5, none, none, false⟩

def taskP2 : Task := ⟨"p2", some 1, none, none, false⟩

def taskP3 : Task := ⟨"p3", some 5, none, none, false⟩

def evsP : List Event :=
  [Event.enqueue taskP1, Event.enqueue taskP2, Event.enqueue taskP3]

/-- The counterexample trace for the concurrency bound: start a task,
cancel everything, admit a second task into the freed slot, then let
the first execution reject and its backoff timer re-insert it. -/
def evsC1 : List Event :=
  [Event.enqueue taskA, Event.cancelAll, Event.enqueue taskB,
   Event.reject 0, Event.timerFire 0]

/-- concurrency 1, maxRetries 2, a task that fails on all three
attempts (spec §8 scenario). -/
def evsC5 : List Event :=
  [Event.enqueue (taskT 2), Event.reject 0, Event.timerFire 0,
   Event.reject 0, Event.timerFire 0, Event.reject 0]

/-- A task whose progress callback reports 150 percent. -/
def evsC6 : List Event :=
  [Event.enqueue taskA, Event.report 0 150 TaskStatus.RUNNING none]

def isRunningWithError (e : TaskProgress) : Bool :=
  decide (e.status = TaskStatus.RUNNING ∧ e.error ≠ none)

/-! ### C1 -/

/-- C1 (counterexample): with concurrency 1, the trace
enqueue `a` / cancelAll / enqueue `b` / reject `a`'s attempt / backoff
timer fires, leaves TWO entries in the running map: line 233 re-inserts
a cancelled task unconditionally while `b` occupies the only slot.  So
the running-set size does exceed the configured concurrency for this
sequence of public operations and task outcomes, refuting the claim as
stated. -/
theorem C1_counterexample :
    optsC1.concurrency = 1 ∧
    (runFull optsC1 initState evsC1).1.running.length = 2 := by
  constructor
  · rfl
  · rfl

/-- C1 (amended): provided no cancellation operation runs and no task
is enqueued while another task with the same id is pending or in
flight (`OkTrace`), the running-set size never exceeds the configured
concurrency, and a task awaiting its backoff delay still occupies its
entry in the running map, so its slot is not released to another
pending task during the backoff wait. -/
theorem C1_running_bound_amended (o : QueueOptions) (evs : List Event)
    (h : OkTrace o initState evs) :
    (runFull o initState evs).1.running.length ≤ o.concurrency ∧
    ∀ a ∈ (runFull o initState evs).1.inFlight, a.phase = Phase.backoff →
      a.task.id ∈ keys (runFull o initState evs).1.running := by
  have hinv := inv_run (inv_init o) h
  exact ⟨hinv.bound, fun a ha _ => hinv.fk a ha⟩

theorem C1_witness :
    (runFull optsC1 initState [Event.enqueue taskA, Event.reject 0]).1.running.length ≤
      optsC1.concurrency :=
  (C1_running_bound_amended optsC1 [Event.enqueue taskA, Event.reject 0]
    ⟨show taskA.id ∉ liveIds initState by decide, trivial, trivial⟩).1

/-! ### C9 -/

/-- C9: the running set is a `Map` keyed by task id, so (1) in every
reachable state — under every event sequence, including cancellations
and duplicate-id enqueues — its keys are pairwise distinct (at most one
entry per id); (2) starting a second task with an id already running
overwrites the first's entry (the map holds the Task of the second,
`dupX2` with priority 2, while two executions are in flight); (3) a
terminal transition of either execution deletes the single shared entry
(here the FIRST task's success deletes the entry now holding the
second); (4) consequently the number of executions in flight (3) can
exceed both the running-set size (2) and the configured concurrency
(2). -/
theorem C9_running_map_keyed_by_id :
    (∀ (o : QueueOptions) (evs : List Event),
        (keys (runFull o initState evs).1.running).Nodup) ∧
    ((runFull optsC2 initState [Event.enqueue dupX1, Event.enqueue dupX2]).1.running.map
        (fun p => (p.1, taskPri p.2.task)) = [("x", 2)] ∧
      (runFull optsC2 initState [Event.enqueue dupX1, Event.enqueue dupX2]).1.inFlight.length = 2) ∧
    (keys (runFull optsC2 initState
        [Event.enqueue dupX1, Event.enqueue dupX2, Event.resolveOk 0]).1.running = []) ∧
    ((runFull optsC2 initState
        [Event.enqueue dupX1, Event.enqueue dupX2, Event.enqueue taskY]).1.inFlight.length = 3 ∧
      (runFull optsC2 initState
        [Event.enqueue dupX1, Event.enqueue dupX2, Event.enqueue taskY]).1.running.length = 2 ∧
      optsC2.concurrency = 2) :=
  ⟨fun o evs => kn_run o evs initState (by simp [initState, keys]),
   ⟨rfl, rfl⟩, rfl, rfl, rfl, rfl⟩

/-! ### C10 -/

/-- C10: a CANCELLED broadcast is not necessarily the last event for a
task.  (1) The success path (lines 225-226) performs no membership
check: whenever an in-flight execution fulfils, a COMPLETED event is
broadcast even if `cancelAll` already removed the task from the running
set.  (2) If instead the execution rejects with captured attempts below
its maxRetries, the backoff-timer path (line 233) re-inserts the task
into the running set and re-invokes its execution.  (3) Concrete trace:
enqueue, cancelAll, then the execution fulfils — the observer sees
CANCELLED followed by COMPLETED for the same task. -/
theorem C10_cancellation_not_terminal :
    (∀ (o : QueueOptions) (st : QMState) (i : Nat) (a : Attempt),
        st.inFlight[i]? = some a → a.phase = Phase.executing →
        Action.notify (mkEvent a.task.id 100 TaskStatus.COMPLETED none) ∈ (resolveOk o st i).2) ∧
    (∀ (st : QMState) (i : Nat) (a : Attempt),
        st.inFlight[i]? = some a → a.phase = Phase.backoff →
        a.task.id ∈ keys (timerFire st i).1.running ∧
        (timerFire st i).1.inFlight[i]? = some ⟨a.task, a.captured + 1, Phase.executing⟩) ∧
    ((runFull optsC1 initState [Event.enqueue taskA0, Event.cancelAll, Event.resolveOk 0]).2 =
      [Action.notify (mkEvent "a" 0 TaskStatus.RUNNING none), Action.executeCall "a",
       Action.notify (mkEvent "a" 0 TaskStatus.CANCELLED none),
       Action.notify (mkEvent "a" 100 TaskStatus.COMPLETED none)]) := by
  refine ⟨?_, ?_, rfl⟩
  · intro o st i a hi hp
    rw [resolveOk_eq hi hp]
    exact List.mem_cons_self _ _
  · intro st i a hi hp
    have hlen : i < st.inFlight.length := by
      by_contra hc
      rw [List.getElem?_eq_none (by omega)] at hi
      exact Option.noConfusion hi
    rw [timerFire_eq hi hp]
    refine ⟨mem_keys_mapSet_self _ _ _, ?_⟩
    show (st.inFlight.set i ⟨a.task, a.captured + 1, Phase.executing⟩)[i]? = _
    rw [List.getElem?_set]
    simp [hlen]

theorem C10_witness :
    Action.notify (mkEvent "a" 100 TaskStatus.COMPLETED none) ∈
      (resolveOk optsC1
        (runFull optsC1 initState [Event.enqueue taskA0, Event.cancelAll]).1 0).2 :=
  C10_cancellation_not_terminal.1 optsC1 _ 0
    ⟨withDefaults optsC1 taskA0, 0, Phase.executing⟩ rfl rfl

/-! ### C2: selection is a stable highest-priority-first choice -/

/-- Ghost history: the tasks that pass through `enqueue` during one
event, in call order (a verification device, not scheduler state). -/
def histStep (o : QueueOptions) (st : QMState) : Event → List Task
  | Event.enqueue t => [withDefaults o t]
  | Event.reprocess => st.failedQueue.map (withDefaults o)
  | _ => []

/-- `runFull` extended with the ghost enqueue history. -/
def runHist (o : QueueOptions) : QMState → List Task → List Event → QMState × List Task
  | st, h, [] => (st, h)
  | st, h, e :: es => runHist o (step o st e).1 (h ++ histStep o st e) es

theorem runHist_fst (o : QueueOptions) (evs : List Event) :
    ∀ (st : QMState) (h : List Task),
      (runHist o st h evs).1 = (runFull o st evs).1 := by
  induction evs with
  | nil => intro st h; rfl
  | cons e es ih => intro st h; exact ih _ _

/-- Within every priority class, the pending queue is ordered as a
sublist of the enqueue history. -/
def StableOrd (hist q : List Task) : Prop :=
  ∀ p : Int, (q.filter (priEq p)).Sublist (hist.filter (priEq p))

theorem stable_processQueue {o : QueueOptions} {st : QMState} {hist : List Task}
    (h : StableOrd hist st.queue) : StableOrd hist (processQueue o st).1.queue := by
  by_cases hg : st.running.length ≥ o.concurrency ∨ st.queue.length = 0
  · rw [processQueue_eq_of_skip hg]; exact h
  · cases hsort : sortQueue st.queue with
    | nil =>
      exact absurd hsort (sortQueue_ne_nil (by intro h0; exact hg (Or.inr h0)))
    | cons t rest =>
      rw [processQueue_eq_of_select hg hsort]
      intro p
      show (rest.filter (priEq p)).Sublist _
      have h1 : (rest.filter (priEq p)).Sublist ((t :: rest).filter (priEq p)) := by
        rw [List.filter_cons]
        split
        · exact List.sublist_cons_self _ _
        · exact List.Sublist.refl _
      have h2 : (t :: rest).filter (priEq p) = st.queue.filter (priEq p) := by
        rw [← hsort, sortQueue_filter]
      exact (h2 ▸ h1).trans (h p)

theorem stable_enqueueOp {o : QueueOptions} {st : QMState} {hist : List Task}
    (t : Task) (h : StableOrd hist st.queue) :
    StableOrd (hist ++ [withDefaults o t]) (enqueueOp o st t).1.queue := by
  apply stable_processQueue
  intro p
  show ((st.queue ++ [withDefaults o t]).filter (priEq p)).Sublist _
  rw [List.filter_append, List.filter_append]
  exact (h p).append (List.Sublist.refl _)

theorem stable_foldl_enqueue {o : QueueOptions} (l : List Task) :
    ∀ (st : QMState) (hist : List Task), StableOrd hist st.queue →
      StableOrd (hist ++ l.map (withDefaults o))
        (l.foldl (fun s t => (enqueueOp o s t).1) st).queue := by
  induction l with
  | nil => intro st hist h; simpa using h
  | cons f l ih =>
    intro st hist h
    simp only [List.foldl_cons, List.map_cons]
    have := ih (enqueueOp o st f).1 (hist ++ [withDefaults o f]) (stable_enqueueOp f h)
    simpa [List.append_assoc] using this

theorem stable_nil (hist : List Task) : StableOrd hist [] := by
  intro p
  simp

theorem stable_step {o : QueueOptions} {st : QMState} {hist : List Task}
    (h : StableOrd hist st.queue) (e : Event) :
    StableOrd (hist ++ histStep o st e) (step o st e).1.queue := by
  cases e with
  | enqueue t => exact stable_enqueueOp t h
  | cancelAll => exact stable_nil _
  | clearQueue b =>
    cases b with
    | false => exact stable_nil _
    | true => exact stable_nil _
  | reprocess =>
    show StableOrd _ (reprocessFailedTasksOp o st).1.queue
    rw [reprocess_state_eq]
    exact stable_foldl_enqueue st.failedQueue st hist h
  | resolveOk i =>
    show StableOrd _ (resolveOk o st i).1.queue
    cases hi : st.inFlight[i]? with
    | none => rw [resolveOk_eq_of_none hi]; simpa [histStep] using h
    | some a =>
      by_cases hp : a.phase = Phase.executing
      · rw [resolveOk_eq (o := o) hi hp]
        simp only [histStep, List.append_nil]
        exact stable_processQueue h
      · rw [resolveOk_eq_of_backoff hi hp]; simpa [histStep] using h
  | reject i =>
    show StableOrd _ (rejectAttempt o st i).1.queue
    cases hi : st.inFlight[i]? with
    | none => rw [rejectAttempt_eq_of_none hi]; simpa [histStep] using h
    | some a =>
      by_cases hp : a.phase = Phase.executing
      · by_cases hr : a.captured < effMaxRetries o a.task
        · rw [rejectAttempt_eq_retry hi hp hr]; simpa [histStep] using h
        · rw [rejectAttempt_eq_final hi hp hr]
          simp only [histStep, List.append_nil]
          exact stable_processQueue h
      · rw [rejectAttempt_eq_of_backoff hi hp]; simpa [histStep] using h
  | timerFire i =>
    show StableOrd _ (timerFire st i).1.queue
    cases hi : st.inFlight[i]? with
    | none => rw [timerFire_eq_of_none hi]; simpa [histStep] using h
    | some a =>
      by_cases hp : a.phase = Phase.backoff
      · rw [timerFire_eq hi hp]; simpa [histStep] using h
      · rw [timerFire_eq_of_executing hi hp]; simpa [histStep] using h
  | report i p s err =>
    show StableOrd _ (reportProgress st i p s err).1.queue
    rw [reportProgress_state]
    simpa [histStep] using h

theorem stable_run (o : QueueOptions) (evs : List Event) :
    ∀ (st : QMState) (hist : List Task), StableOrd hist st.queue →
      StableOrd (runHist o st hist evs).2 (runHist o st hist evs).1.queue := by
  induction evs with
  | nil => intro st hist h; exact h
  | cons e es ih => intro st hist h; exact ih _ _ (stable_step h e)

/-- C2: whenever selection runs (a free slot with a non-empty pending
queue sorts the queue and shifts its head `t`, lines 198-200), for
every trace of public operations and outcomes: (1) `t` has priority
`≥` every other pending task; (2) `t` is the first element of the
pending queue within its own priority class; and (3) within every
priority class the pending queue is a sublist of the enqueue history,
so "first in the queue" is "earliest enqueued among the pending tied
tasks" — selection is a stable, insertion-ordered tie-break. -/
theorem C2_priority_selection (o : QueueOptions) (evs : List Event)
    (t : Task) (rest : List Task)
    (h : sortQueue (runHist o initState [] evs).1.queue = t :: rest) :
    (∀ u ∈ (runHist o initState [] evs).1.queue, taskPri u ≤ taskPri t) ∧
    ((runHist o initState [] evs).1.queue.filter (priEq (taskPri t))).head? = some t ∧
    (∀ p : Int,
      ((runHist o initState [] evs).1.queue.filter (priEq p)).Sublist
        ((runHist o initState [] evs).2.filter (priEq p))) :=
  ⟨sortQueue_head_max h, sortQueue_head_first_tie h,
   stable_run o evs initState [] (stable_nil [])⟩

theorem C2_witness :
    (∀ u ∈ (runHist optsC1 initState [] evsP).1.queue,
      taskPri u ≤ taskPri (withDefaults optsC1 taskP3)) ∧
    ((runHist optsC1 initState [] evsP).1.queue.filter
        (priEq (taskPri (withDefaults optsC1 taskP3)))).head? =
      some (withDefaults optsC1 taskP3) ∧
    (∀ p : Int,
      ((runHist optsC1 initState [] evsP).1.queue.filter (priEq p)).Sublist
        ((runHist optsC1 initState [] evsP).2.filter (priEq p))) :=
  C2_priority_selection optsC1 evsP (withDefaults optsC1 taskP3)
    [withDefaults optsC1 taskP2] rfl

/-! ### C3: retry exhaustion -/

theorem runFull_append (o : QueueOptions) (es1 es2 : List Event) :
    ∀ st : QMState, runFull o st (es1 ++ es2) =
      ((runFull o (runFull o st es1).1 es2).1,
       (runFull o st es1).2 ++ (runFull o (runFull o st es1).1 es2).2) := by
  induction es1 with
  | nil => intro st; simp [runFull_nil, runFull_cons]
  | cons e es ih =>
    intro st
    rw [List.cons_append, runFull_cons, ih, runFull_cons]
    simp [runFull_cons]

/-- The environment script for a task that fails every attempt:
`n` backoff rounds (reject, then timer) followed by the final
rejection. -/
def failLoopEvs : Nat → List Event
  | 0 => [Event.reject 0]
  | n + 1 => Event.reject 0 :: Event.timerFire 0 :: failLoopEvs n

/-- The actions those rounds emit. -/
def failActs : Nat → List Action
  | 0 => [Action.notify (mkEvent "t" 0 TaskStatus.FAILED (some "error"))]
  | n + 1 => Action.notify (mkEvent "t" 0 TaskStatus.RUNNING (some "error")) ::
      Action.executeCall "t" :: failActs n

theorem effMaxRetries_taskTD (R : Nat) : effMaxRetries optsC1 (taskTD R) = R := rfl

theorem C3loop (R : Nat) (n : Nat) : ∀ k : Nat, k + n = R →
    runFull optsC1 ⟨[], [], [("t", ⟨taskTD R, k⟩)], [⟨taskTD R, k, Phase.executing⟩]⟩
      (failLoopEvs n) = (⟨[], [taskTD R], [], []⟩, failActs n) := by
  induction n with
  | zero =>
    intro k hk
    have hkR : k = R := by omega
    subst hkR
    rw [failLoopEvs, runFull_cons, runFull_nil]
    show ((rejectAttempt optsC1 _ 0).1, (rejectAttempt optsC1 _ 0).2 ++ []) = _
    rw [rejectAttempt_eq_final (a := ⟨taskTD k, k, Phase.executing⟩) rfl rfl
      (show ¬ k < effMaxRetries optsC1 (taskTD k) by rw [effMaxRetries_taskTD]; omega)]
    rfl
  | succ n ih =>
    intro k hk
    have hstep2 : runFull optsC1
        ⟨[], [], [("t", ⟨taskTD R, k⟩)], [⟨taskTD R, k, Phase.executing⟩]⟩
        [Event.reject 0, Event.timerFire 0] =
        (⟨[], [], [("t", ⟨taskTD R, k + 1⟩)], [⟨taskTD R, k + 1, Phase.executing⟩]⟩,
         [Action.notify (mkEvent "t" 0 TaskStatus.RUNNING (some "error")),
          Action.executeCall "t"]) := by
      rw [runFull_cons, runFull_cons, runFull_nil]
      show ((timerFire (rejectAttempt optsC1 _ 0).1 0).1,
        (rejectAttempt optsC1 _ 0).2 ++ ((timerFire (rejectAttempt optsC1 _ 0).1 0).2 ++ [])) = _
      rw [rejectAttempt_eq_retry (a := ⟨taskTD R, k, Phase.executing⟩) rfl rfl
        (show k < effMaxRetries optsC1 (taskTD R) by rw [effMaxRetries_taskTD]; omega)]
      rw [timerFire_eq (a := ⟨taskTD R, k, Phase.backoff⟩) rfl rfl]
      rfl
    have hsplit : failLoopEvs (n + 1) =
        [Event.reject 0, Event.timerFire 0] ++ failLoopEvs n := rfl
    rw [hsplit, runFull_append, hstep2]
    rw [ih (k + 1) (by omega)]
    rfl

theorem countExec_failActs (n : Nat) :
    (failActs n).countP (fun a => decide (a = Action.executeCall "t")) = n := by
  induction n with
  | zero => decide
  | succ n ih =>
    rw [failActs, List.countP_cons, List.countP_cons, ih]
    simp

/-- C3: for every R, a task whose effective maxRetries is R and whose
execution rejects on every invocation has its execution invoked exactly
R + 1 times, after which it is the sole element of the failed list and
is present neither in the pending queue nor in the running map nor in
flight. -/
theorem C3_retry_exhaustion (R : Nat) :
    ((runFull optsC1 initState (Event.enqueue (taskT R) :: failLoopEvs R)).2.countP
        (fun a => decide (a = Action.executeCall "t")) = R + 1) ∧
    (getFailedTasks
      (runFull optsC1 initState (Event.enqueue (taskT R) :: failLoopEvs R)).1).map Task.id =
      ["t"] ∧
    (runFull optsC1 initState (Event.enqueue (taskT R) :: failLoopEvs R)).1.queue = [] ∧
    keys (runFull optsC1 initState (Event.enqueue (taskT R) :: failLoopEvs R)).1.running = [] ∧
    (runFull optsC1 initState (Event.enqueue (taskT R) :: failLoopEvs R)).1.inFlight = [] := by
  have hfirst : runFull optsC1 initState [Event.enqueue (taskT R)] =
      (⟨[], [], [("t", ⟨taskTD R, 0⟩)], [⟨taskTD R, 0, Phase.executing⟩]⟩,
       [Action.notify (mkEvent "t" 0 TaskStatus.RUNNING none),
        Action.executeCall "t"]) := rfl
  have hrun : runFull optsC1 initState (Event.enqueue (taskT R) :: failLoopEvs R) =
      (⟨[], [taskTD R], [], []⟩,
       [Action.notify (mkEvent "t" 0 TaskStatus.RUNNING none),
        Action.executeCall "t"] ++ failActs R) := by
    rw [show (Event.enqueue (taskT R) :: failLoopEvs R) =
      [Event.enqueue (taskT R)] ++ failLoopEvs R from rfl]
    rw [runFull_append, hfirst]
    rw [C3loop R R 0 (by omega)]
  rw [hrun]
  refine ⟨?_, rfl, rfl, rfl, rfl⟩
  rw [List.countP_append, countExec_failActs]
  have h1 : ([Action.notify (mkEvent "t" 0 TaskStatus.RUNNING none),
      Action.executeCall "t"]).countP (fun a => decide (a = Action.executeCall "t")) = 1 := by
    decide
  omega

/-! ### C5: the concrete always-failing scenario -/

/-- C5 (counterexample): with concurrency 1, maxRetries 2 and a task
failing all three attempts, the observer receives exactly TWO
RUNNING-with-error events (for the failures of attempts 0 and 1; the
failure of attempt 2 is broadcast as FAILED, lines 229-237), not three
as the claim states. -/
theorem C5_counterexample :
    (notifyEvents (runFull optsC1 initState evsC5).2).countP isRunningWithError = 2 ∧
    ¬ (notifyEvents (runFull optsC1 initState evsC5).2).countP isRunningWithError = 3 := by
  decide

/-- C5 (amended): in that scenario the observer receives one RUNNING
event without error (task start), then exactly 2 RUNNING events
carrying the error (attempts 0 and 1), then exactly one FAILED event
carrying the error (attempt 2), and `getFailedTasks()` afterwards
returns exactly one entry bearing the task's id. -/
theorem C5_event_sequence_amended :
    notifyEvents (runFull optsC1 initState evsC5).2 =
      [mkEvent "t" 0 TaskStatus.RUNNING none,
       mkEvent "t" 0 TaskStatus.RUNNING (some "error"),
       mkEvent "t" 0 TaskStatus.RUNNING (some "error"),
       mkEvent "t" 0 TaskStatus.FAILED (some "error")] ∧
    (getFailedTasks (runFull optsC1 initState evsC5).1).map Task.id = ["t"] := by
  constructor
  · rfl
  · rfl

/-! ### C6: the event wire shape -/

/-- C6 (counterexample): `TaskProgress` carries no timestamp.  In the
always-failing trace the second and third broadcast events — emitted at
distinct instants — are the very same record value, so no field of the
event records the instant of the broadcast; and a task progress
callback reporting 150 is forwarded unmodified (line 224), so the
progress field is not confined to [0, 100] either. -/
theorem C6_counterexample :
    (notifyEvents (runFull optsC1 initState evsC5).2)[1]? =
        some (mkEvent "t" 0 TaskStatus.RUNNING (some "error")) ∧
    (notifyEvents (runFull optsC1 initState evsC5).2)[2]? =
        some (mkEvent "t" 0 TaskStatus.RUNNING (some "error")) ∧
    (notifyEvents (runFull optsC1 initState evsC6).2)[1]? =
        some (mkEvent "a" 150 TaskStatus.RUNNING none) := by
  refine ⟨rfl, rfl, rfl⟩

/-- C6 (amended): every broadcast `ProgressEvent` consists of exactly
`taskId`, `progress`, `status` and optional `error` — the four fields
determine the event, leaving no room for a timestamp — and an event
forwarded from a task's progress callback carries the reported
progress, status and error unmodified under the task's id. -/
theorem C6_event_shape_amended :
    (∀ e1 e2 : TaskProgress, e1.taskId = e2.taskId → e1.progress = e2.progress →
      e1.status = e2.status → e1.error = e2.error → e1 = e2) ∧
    (∀ (st : QMState) (i : Nat) (a : Attempt) (p : Int) (s : TaskStatus)
        (err : Option String), st.inFlight[i]? = some a →
      reportProgress st i p s err = (st, [Action.notify (mkEvent a.task.id p s err)])) := by
  constructor
  · intro e1 e2 h1 h2 h3 h4
    cases e1
    cases e2
    simp_all
  · intro st i a p s err hi
    simp [reportProgress, hi]

theorem C6_witness :
    reportProgress (runFull optsC1 initState [Event.enqueue taskA]).1 0 150
        TaskStatus.RUNNING none =
      ((runFull optsC1 initState [Event.enqueue taskA]).1,
       [Action.notify (mkEvent "a" 150 TaskStatus.RUNNING none)]) :=
  C6_event_shape_amended.2 (runFull optsC1 initState [Event.enqueue taskA]).1 0
    ⟨withDefaults optsC1 taskA, 0, Phase.executing⟩ 150 TaskStatus.RUNNING none rfl

/-! ### C7: cancelAll -/

theorem countP_flatten_zero {β : Type} (f : β → List Action) (pr : Action → Bool)
    (l : List β) (hz : ∀ y ∈ l, (f y).countP pr = 0) :
    ((l.map f).flatten).countP pr = 0 := by
  induction l with
  | nil => rfl
  | cons a l ih =>
    simp only [List.map_cons, List.flatten_cons, List.countP_append]
    rw [hz a (List.mem_cons_self a l), ih (fun y hy => hz y (List.mem_cons_of_mem a hy))]

theorem countP_flatten_unique {β : Type} (f : β → List Action) (pr : Action → Bool)
    (key : β → String) (l : List β) (hnd : (l.map key).Nodup)
    {x : β} (hx : x ∈ l)
    (hother : ∀ y ∈ l, key y ≠ key x → (f y).countP pr = 0) :
    ((l.map f).flatten).countP pr = (f x).countP pr := by
  induction l with
  | nil => cases hx
  | cons a l ih =>
    simp only [List.map_cons, List.flatten_cons, List.countP_append]
    rw [List.map_cons, List.nodup_cons] at hnd
    rcases List.mem_cons.mp hx with he | hm
    · subst he
      have hz : ∀ y ∈ l, (f y).countP pr = 0 := by
        intro y hy
        apply hother y (List.mem_cons_of_mem _ hy)
        intro hkey
        exact hnd.1 (hkey ▸ List.mem_map_of_mem key hy)
      rw [countP_flatten_zero f pr l hz]
      omega
    · have hka : key a ≠ key x := by
        intro hkey
        exact hnd.1 (hkey ▸ List.mem_map_of_mem key hm)
      rw [hother a (List.mem_cons_self a l) hka,
        ih hnd.2 hm (fun y hy h2 => hother y (List.mem_cons_of_mem a hy) h2)]
      omega

theorem countP_cancelBlock_cancel {p : String × RunningEntry}
    (hc : p.2.task.hasCancel = true) :
    (cancelBlock p).countP (fun a => decide (a = Action.cancelCall p.1)) = 1 := by
  simp [cancelBlock, hc, List.countP_cons]

theorem countP_cancelBlock_cancel_ne {p q : String × RunningEntry} (hne : q.1 ≠ p.1) :
    (cancelBlock q).countP (fun a => decide (a = Action.cancelCall p.1)) = 0 := by
  by_cases hc : q.2.task.hasCancel <;>
    simp [cancelBlock, hc, List.countP_cons, hne]

theorem countP_cancelBlock_evt (p : String × RunningEntry) :
    (cancelBlock p).countP
      (fun a => decide (a = Action.notify (mkEvent p.1 0 TaskStatus.CANCELLED none))) = 1 := by
  by_cases hc : p.2.task.hasCancel <;>
    simp [cancelBlock, hc, List.countP_cons]

theorem countP_cancelBlock_evt_ne {p q : String × RunningEntry} (hne : q.1 ≠ p.1) :
    (cancelBlock q).countP
      (fun a => decide (a = Action.notify (mkEvent p.1 0 TaskStatus.CANCELLED none))) = 0 := by
  by_cases hc : q.2.task.hasCancel <;>
    simp [cancelBlock, hc, List.countP_cons, mkEvent, hne]

theorem mem_cancelBlock_actId {p : String × RunningEntry} {act : Action}
    (h : act ∈ cancelBlock p) : actId act = p.1 := by
  unfold cancelBlock at h
  by_cases hc : p.2.task.hasCancel
  · rw [if_pos hc] at h
    rcases List.mem_append.mp h with h | h
    · rw [List.mem_singleton.mp h]; rfl
    · rw [List.mem_singleton.mp h]; rfl
  · rw [if_neg hc] at h
    rw [List.nil_append] at h
    rw [List.mem_singleton.mp h]
    rfl

/-- C7: when `cancelAll()` returns, the pending queue and the running
map are both empty; for every previously-running entry that supplies a
`cancel` hook the hook was invoked exactly once; exactly one CANCELLED
event was broadcast per previously-running entry; and every emitted
action concerns a previously-running id — in particular no event is
emitted for tasks that were only pending. -/
theorem C7_cancelAll_spec (st : QMState) (h : (keys st.running).Nodup) :
    (cancelAllOp st).1.queue = [] ∧
    (cancelAllOp st).1.running = [] ∧
    (∀ p ∈ st.running, p.2.task.hasCancel = true →
      (cancelAllOp st).2.countP (fun a => decide (a = Action.cancelCall p.1)) = 1) ∧
    (∀ p ∈ st.running,
      (cancelAllOp st).2.countP
        (fun a => decide (a = Action.notify (mkEvent p.1 0 TaskStatus.CANCELLED none))) = 1) ∧
    (∀ act ∈ (cancelAllOp st).2, actId act ∈ keys st.running) := by
  refine ⟨rfl, rfl, ?_, ?_, ?_⟩
  · intro p hp hc
    exact (countP_flatten_unique cancelBlock _ Prod.fst st.running h hp
      (fun q hq hne => countP_cancelBlock_cancel_ne hne)).trans
      (countP_cancelBlock_cancel hc)
  · intro p hp
    exact (countP_flatten_unique cancelBlock _ Prod.fst st.running h hp
      (fun q hq hne => countP_cancelBlock_evt_ne hne)).trans
      (countP_cancelBlock_evt p)
  · intro act hact
    obtain ⟨l, hl, hin⟩ := List.mem_flatten.mp hact
    obtain ⟨q, hq, rfl⟩ := List.mem_map.mp hl
    rw [mem_cancelBlock_actId hin]
    exact List.mem_map_of_mem Prod.fst hq

/-- A running entry supplying a cancel hook, for the witness. -/
def taskC : Task := { id := "a", hasCancel := true }

def stW : QMState := ⟨[], [], [("a", ⟨taskC, 0⟩)], []⟩

theorem C7_witness :
    (cancelAllOp stW).1.queue = [] ∧ (cancelAllOp stW).1.running = [] ∧
    (cancelAllOp stW).2.countP (fun a => decide (a = Action.cancelCall "a")) = 1 :=
  have h := C7_cancelAll_spec stW (by decide)
  ⟨h.1, h.2.1, h.2.2.1 ("a", ⟨taskC, 0⟩) (List.mem_cons_self _ _) rfl⟩

/-! ### C8: reprocessFailedTasks -/

/-- Ids of tasks currently pending or holding a running entry. -/
def live2 (st : QMState) : List String := st.queue.map Task.id ++ keys st.running

theorem mem_live2_processQueue {o : QueueOptions} {st : QMState} {x : String}
    (h : x ∈ live2 st) : x ∈ live2 (processQueue o st).1 := by
  by_cases hg : st.running.length ≥ o.concurrency ∨ st.queue.length = 0
  · rw [processQueue_eq_of_skip hg]; exact h
  · cases hsort : sortQueue st.queue with
    | nil =>
      exact absurd hsort (sortQueue_ne_nil (by intro h0; exact hg (Or.inr h0)))
    | cons t rest =>
      rw [processQueue_eq_of_select hg hsort]
      show x ∈ rest.map Task.id ++ keys (mapSet st.running t.id ⟨t, 0⟩)
      rcases List.mem_append.mp h with hq | hk
      · have hperm : ((t :: rest).map Task.id).Perm (st.queue.map Task.id) :=
          (hsort ▸ sortQueue_perm st.queue).map Task.id
        have : x ∈ (t :: rest).map Task.id := hperm.symm.subset hq
        rw [List.map_cons] at this
        rcases List.mem_cons.mp this with he | hr
        · exact List.mem_append_right _ (he ▸ mem_keys_mapSet_self _ _ _)
        · exact List.mem_append_left _ hr
      · exact List.mem_append_right _ (mem_keys_mapSet_of_mem hk)

theorem mem_live2_enqueueOp {o : QueueOptions} {st : QMState} {u : Task} {x : String}
    (h : x ∈ live2 st) : x ∈ live2 (enqueueOp o st u).1 := by
  apply mem_live2_processQueue
  show x ∈ (st.queue ++ [withDefaults o u]).map Task.id ++ keys st.running
  rw [List.map_append]
  rcases List.mem_append.mp h with hq | hk
  · exact List.mem_append_left _ (List.mem_append_left _ hq)
  · exact List.mem_append_right _ hk

theorem self_mem_live2_enqueueOp (o : QueueOptions) (st : QMState) (u : Task) :
    u.id ∈ live2 (enqueueOp o st u).1 := by
  apply mem_live2_processQueue
  show u.id ∈ (st.queue ++ [withDefaults o u]).map Task.id ++ keys st.running
  rw [List.map_append]
  apply List.mem_append_left
  apply List.mem_append_right
  simp [withDefaults_id]

theorem mem_live2_foldl {o : QueueOptions} (l : List Task) :
    ∀ (st : QMState) (x : String), x ∈ live2 st →
      x ∈ live2 (l.foldl (fun s t => (enqueueOp o s t).1) st) := by
  induction l with
  | nil => intro st x h; exact h
  | cons f l ih =>
    intro st x h
    exact ih _ x (mem_live2_enqueueOp h)

theorem mem_live2_foldl_self {o : QueueOptions} (l : List Task) :
    ∀ (st : QMState) (t : Task), t ∈ l →
      t.id ∈ live2 (l.foldl (fun s t => (enqueueOp o s t).1) st) := by
  induction l with
  | nil => intro st t h; cases h
  | cons f l ih =>
    intro st t h
    rcases List.mem_cons.mp h with he | hm
    · subst he
      exact mem_live2_foldl l _ _ (self_mem_live2_enqueueOp o st t)
    · exact ih _ t hm

/-- C8: `reprocessFailedTasks()` re-enqueues every failed task through
the normal `enqueue` path (lines 124-125, so defaults and selection
apply: each formerly-failed task's id ends up pending or running), and
the failed list is empty at the instant the call returns (line 126) —
regardless of later failures, which are separate transitions. -/
theorem C8_reprocess_spec (o : QueueOptions) (st : QMState) :
    (reprocessFailedTasksOp o st).1.failedQueue = [] ∧
    ∀ t ∈ st.failedQueue,
      t.id ∈ (reprocessFailedTasksOp o st).1.queue.map Task.id ++
        keys (reprocessFailedTasksOp o st).1.running := by
  rw [reprocess_state_eq]
  refine ⟨rfl, ?_⟩
  intro t ht
  show t.id ∈ live2 _
  exact mem_live2_foldl_self st.failedQueue st t ht

def stF : QMState := ⟨[], [taskA], [], []⟩

theorem C8_witness :
    (reprocessFailedTasksOp optsC1 stF).1.failedQueue = [] ∧
    "a" ∈ (reprocessFailedTasksOp optsC1 stF).1.queue.map Task.id ++
      keys (reprocessFailedTasksOp optsC1 stF).1.running :=
  have h := C8_reprocess_spec optsC1 stF
  ⟨h.1, h.2 taskA (List.mem_cons_self _ _)⟩

/-! ### C4: listener exceptions during broadcast -/

/-- Listener behaviour: runs normally or throws. -/
inductive LBeh where
  | ok
  | throws (msg : String)
deriving DecidableEq, Repr

/-- `this.listeners.forEach(listener => listener(taskProgress))`, line
257: listeners are invoked in registration order with the same event;
`forEach` has no exception handling, so a listener's throw ends the
iteration and propagates to the caller of `notifyProgress`.  Returns
the indices of the listeners that were invoked (the thrower included —
it ran up to its throw) and the propagated exception, if any. -/
def deliverFrom : Nat → List LBeh → List Nat × Option String
  | _, [] => ([], none)
  | i, LBeh.ok :: ls =>
    let r := deliverFrom (i + 1) ls
    (i :: r.1, r.2)
  | i, LBeh.throws m :: _ => ([i], some m)

def deliverAll (ls : List LBeh) : List Nat × Option String := deliverFrom 0 ls

/-- `executeTask` (lines 219-241) specialised to a task whose `execute`
always fulfils, observed by a listener that throws exactly on COMPLETED
events.  The throw from the line-225 COMPLETED broadcast is raised
before the line-226 `running.delete` and lands in the line-227 catch
block, which treats it as a task failure: it broadcasts
RUNNING-with-error (status RUNNING, so the listener does not throw),
waits out the backoff, increments the attempts and re-invokes
`execute`; when the captured attempts reach the effective maxRetries it
broadcasts FAILED and pushes the task onto the failed queue.  The
argument is the remaining retry budget `maxRetries - attempts`; the
value is (number of `execute` invocations, task ends on the failed
queue). -/
def execModelTCAux : Nat → Nat × Bool
  | 0 => (1, true)
  | n + 1 => ((execModelTCAux n).1 + 1, (execModelTCAux n).2)

/-- The same model indexed like the code: current `attempts` counter
and effective `maxRetries`. -/
def execModelTC (maxR attempts : Nat) : Nat × Bool :=
  execModelTCAux (maxR - attempts)

theorem execModelTCAux_eq (n : Nat) : execModelTCAux n = (n + 1, true) := by
  induction n with
  | zero => rfl
  | succ n ih => rw [execModelTCAux, ih]

/-- C4 (counterexample): with listeners [ok, throws, ok], only
listeners 0 and 1 are invoked — the event is never delivered to the
third listener — and the exception propagates into the scheduler.  And
under a listener that throws on COMPLETED broadcasts, a task whose
execution always succeeds, enqueued with maxRetries 1, has its
execution invoked twice and ends up on the failed list: the listener's
exception aborts and corrupts the scheduler's completion transition. -/
theorem C4_counterexample :
    deliverAll [LBeh.ok, LBeh.throws "boom", LBeh.ok] = ([0, 1], some "boom") ∧
    execModelTC 1 0 = (2, true) := by
  decide

/-- C4 (amended): if the n-th registered listener throws, exactly the
listeners 0..n are invoked — delivery to all subsequently registered
listeners does NOT occur — and the exception propagates into the
scheduler's transition logic; in particular a throw during the
COMPLETED broadcast is caught by the retry handler, so an
always-succeeding task is re-executed `maxRetries + 1` times and then
moved to the failed list. -/
theorem C4_listener_exception_propagation :
    (∀ (n : Nat) (m : String) (post : List LBeh),
      deliverAll (List.replicate n LBeh.ok ++ LBeh.throws m :: post) =
        (List.range (n + 1), some m)) ∧
    (∀ maxR : Nat, execModelTC maxR 0 = (maxR + 1, true)) := by
  constructor
  · have hgen : ∀ (n : Nat) (m : String) (post : List LBeh) (i : Nat),
        deliverFrom i (List.replicate n LBeh.ok ++ LBeh.throws m :: post) =
          (List.range' i (n + 1), some m) := by
      intro n m post
      induction n with
      | zero => intro i; rfl
      | succ n ih =>
        intro i
        rw [List.replicate_succ, List.cons_append, deliverFrom, ih (i + 1)]
        simp [List.range'_succ]
    intro n m post
    rw [deliverAll, hgen n m post 0, List.range_eq_range']
  · intro maxR
    rw [execModelTC, Nat.sub_zero, execModelTCAux_eq]

end QM
